import Mathlib

/-!
Shallow embedding of the fake-image-checker extension (src/extension.ts).

The core of the repository is the event race `first(stuff, done)`
(vendored from the ee-first package, lines 181-232 of extension.ts) and
the orchestrator's `check` callback (lines 28-62).

Modelling decisions:

* An event emitter (`EventEmitter` from the Node `events` module, imported
  at line 19 of extension.ts) is modelled by its registered-listener
  table.  A listener registration is a triple `(ee, event, lid)` where
  `ee : Nat` identifies the emitter object, `event : String` the event
  name, and `lid : Nat` the identity of the listener closure (each call
  to `listener(event, callback)` at line 199 creates a fresh closure, so
  `lid` is a fresh counter).  `removeListener` removes one registration
  matching `(ee, event, lid)`.
* Per Node's documented `emit` semantics, emitting an event invokes all
  listeners attached to that `(emitter, event)` pair at the moment of the
  emit, in registration order, even if some of them are removed while the
  dispatch is in progress ("any removeListener() calls after emitting and
  before the last listener finishes execution will not remove them from
  emit() in progress").  `emit` below therefore snapshots the matching
  registrations first and then delivers to each in turn.
* Event payloads are modelled as `List Nat` (opaque values); the
  orchestrator's check payloads are `ImageCheck` records as in the
  `@podman-desktop/api` data contract.
* Invoking the race's completion callback `done` is modelled by
  appending a `SettleCall` record to a trace of calls; promise
  resolution takes the first such call (the first `resolve` wins).
-/

namespace ImageChecker

/-- A listener registration `(ee, event, lid)`: emitter identity, event
name, listener-closure identity. -/
abbrev Sub := Nat × String × Nat

/-- One member of the `stuff` array passed to `first`: either not an
array at all (or an array of fewer than two elements whose shape cannot
be read as `[ee, events...]`), or an array `[ee, e1, ..., en]` holding an
emitter and the `n` event names after it (`n = 0` models a one-element
array). -/
inductive Entry where
  | bad : Entry
  | mk (ee : Nat) (events : List String) : Entry
deriving DecidableEq

/-- The `stuff` argument of `first`: either not an array, or an array of
entries. -/
inductive RaceInput where
  | notArray : RaceInput
  | arr (entries : List Entry) : RaceInput
deriving DecidableEq

/-- The well-formedness test of extension.ts line 191: the member is an
array of length at least 2 (`[ee, events...]` with at least one event). -/
def wfEntry : Entry → Bool
  | .bad => false
  | .mk _ events => !events.isEmpty

/-- The whole input is accepted: an array all of whose members are
well-formed. -/
def wfInput : RaceInput → Bool
  | .notArray => false
  | .arr entries => entries.all wfEntry

/-- The inner loop of `first` (lines 197-209): attach one listener per
event name of one entry, drawing fresh listener identities from the
counter `ctr`. -/
def attachEvents (ee : Nat) : List String → Nat → List Sub
  | [], _ => []
  | e :: rest, ctr => (ee, e, ctr) :: attachEvents ee rest (ctr + 1)

/-- The outer loop of `first` (lines 188-210): walk the entries in
order, attaching listeners entry by entry; on the first malformed entry
stop with the `TypeError` message, keeping the listeners already
attached for the preceding entries (the check at line 191 runs inside
the loop, after earlier iterations have already called `ee.on`). -/
def attachEntries : List Entry → Nat → List Sub × Option String
  | [], _ => ([], none)
  | .bad :: _, _ => ([], some "each array member must be [ee, events...]")
  | .mk ee events :: rest, ctr =>
    if events.isEmpty then ([], some "each array member must be [ee, events...]")
    else
      let r := attachEntries rest (ctr + events.length)
      (attachEvents ee events ctr ++ r.1, r.2)

/-- `first(stuff, done)`, setup phase (lines 181-210): returns the list
of listener registrations it performed (equal to its `cleanups` array)
and the `TypeError` message if it threw one. -/
def first : RaceInput → List Sub × Option String
  | .notArray => ([], some "arg must be an array of [ee, events...] arrays")
  | .arr entries => attachEntries entries 0

/-- One invocation of the race's completion callback `done(err, ee,
event, args)` as assembled by `onevent` (lines 240-253). -/
structure SettleCall where
  err : Option Nat
  src : Nat
  event : String
  args : List Nat
deriving DecidableEq

/-- The `onevent` closure built by `listener(event, done)` (lines
239-254): `err` is the first event argument when the event name is the
reserved `error` name, and absent otherwise. -/
def onevent (event : String) (ee : Nat) (args : List Nat) : SettleCall :=
  { err := if event = "error" then args.head? else none
    src := ee
    event := event
    args := args }

/-- The run-time state of one race: the listener registrations currently
present on the emitters (`regs`), the race's fixed `cleanups` array, and
the trace of completion-callback invocations so far (`calls`). -/
structure RaceState where
  regs : List Sub
  cleanups : List Sub
  calls : List SettleCall
deriving DecidableEq

/-- `cleanup()` (lines 217-223): for each element of the `cleanups`
array call `removeListener`, which removes one matching registration. -/
def cleanup (cl : List Sub) (regs : List Sub) : List Sub :=
  cl.foldl (fun r x => r.erase x) regs

/-- Delivery of one snapshotted listener invocation.  A listener
belonging to this race (its registration is in the `cleanups` array)
runs `callback()` (lines 212-215): `cleanup()` followed by
`done(err, ee, event, args)`.  A registration not in `cleanups` is some
other client's listener and leaves the race's state unchanged. -/
def fireOne (args : List Nat) (st : RaceState) (sub : Sub) : RaceState :=
  if sub ∈ st.cleanups then
    { st with
        regs := cleanup st.cleanups st.regs
        calls := st.calls ++ [onevent sub.2.1 sub.1 args] }
  else st

/-- `ee.emit(event, ...args)`: snapshot the registrations for this
emitter and event name, then invoke each in order (removals during the
dispatch do not affect the snapshot, per Node's documented behaviour). -/
def emit (st : RaceState) (s : Nat) (e : String) (args : List Nat) : RaceState :=
  (st.regs.filter (fun x => x.1 == s && x.2.1 == e)).foldl (fireOne args) st

/-- `thunk.cancel` (line 229) is exactly `cleanup`. -/
def cancel (st : RaceState) : RaceState :=
  { st with regs := cleanup st.cleanups st.regs }

/-- An external stimulus: an event fired on a source, or a call to the
controller's cancel. -/
inductive Action where
  | fire (s : Nat) (e : String) (args : List Nat) : Action
  | docancel : Action
deriving DecidableEq

/-- One stimulus applied to the race state. -/
def step (st : RaceState) : Action → RaceState
  | .fire s e args => emit st s e args
  | .docancel => cancel st

/-- A sequence of stimuli applied in order. -/
def run : RaceState → List Action → RaceState
  | st, [] => st
  | st, a :: rest => run (step st a) rest

/-- The state right after a successful `first` that attached the
registrations `C` on previously listener-free emitters: all of `C` is
registered, `cleanups = C`, no callback invocation yet. -/
def init (C : List Sub) : RaceState :=
  { regs := C, cleanups := C, calls := [] }

/-- The `(source, event)` keys watched by a cleanups list. -/
def keys (C : List Sub) : List (Nat × String) :=
  C.map (fun x => (x.1, x.2.1))

/-- Is the action an event firing (as opposed to a cancel)? -/
def isFire : Action → Bool
  | .fire _ _ _ => true
  | .docancel => false

/-- Does the action fire an event watched by the race? -/
def watchedFire (C : List Sub) : Action → Bool
  | .fire s e _ => decide ((s, e) ∈ keys C)
  | .docancel => false

/-- The listeners attached for a prefix of well-formed entries (used to
describe the partial attachment `first` leaves behind when it throws). -/
def attachOk : List Entry → Nat → List Sub
  | [], _ => []
  | .bad :: _, _ => []
  | .mk ee events :: rest, ctr => attachEvents ee events ctr ++ attachOk rest (ctr + events.length)

/-- The registrations present at the moment `first` returns or throws:
those of the longest well-formed prefix of the entries. -/
def attachedOf : RaceInput → List Sub
  | .notArray => []
  | .arr entries => attachOk (entries.takeWhile wfEntry) 0

/-- One finding of a check result (the `ImageCheck` data contract). -/
structure ImageCheck where
  name : String
  status : String
  severity : Option String
  markdownDescription : Option String
deriving DecidableEq

/-- A check result: a list of findings (the `ImageChecks` contract). -/
structure ImageChecks where
  checks : List ImageCheck
deriving DecidableEq

/-- The outcome of the promise returned by the orchestrator's `check`:
resolved with a result, or rejected with an error. -/
inductive Settled where
  | resolved (v : ImageChecks) : Settled
  | rejected (e : String) : Settled
deriving DecidableEq

/-- The settlement handler the orchestrator passes to `first` (lines
54-60): resolve with the configured result when the winning event is
`done`, and with an empty result otherwise; it never rejects. -/
def check (data : List ImageCheck) (_err : Option Nat) (_ee : Nat) (event : String)
    (_args : List Nat) : Settled :=
  if event = "done" then .resolved { checks := data } else .resolved { checks := [] }

/-- The race input built at lines 49-53: emitter 0 is `cancelEmitter`
watched for `cancel`, emitter 1 is `doneEmitter` watched for `done`. -/
def checkRaceInput : RaceInput :=
  .arr [.mk 0 ["cancel"], .mk 1 ["done"]]

/-- Whether a promise outcome is a rejection. -/
def isRejected : Option Settled → Bool
  | some (.rejected _) => true
  | _ => false

/-- The whole `check` call of `registerProvider` (lines 28-62): set up
the race over the cancel and done emitters, apply the stimuli, and
settle the outer promise from the first completion-callback invocation
(the first `resolve` call wins).  `none` means the promise is still
pending. -/
def runCheck (data : List ImageCheck) (trace : List Action) : Option Settled :=
  match (first checkRaceInput).2 with
  | some _ => none
  | none =>
    match (run (init (first checkRaceInput).1) trace).calls.head? with
    | some c => some (check data c.err c.src c.event c.args)
    | none => none

example : first checkRaceInput = ([(0, "cancel", 0), (1, "done", 1)], none) := by decide

example :
    (run (init (first checkRaceInput).1) [.fire 1 "done" []]).calls =
      [{ err := none, src := 1, event := "done", args := [] }] := by decide

example :
    (run (init (first (.arr [.mk 0 ["a", "a"]])).1) [.fire 0 "a" []]).calls.length = 2 := by
  decide

example : first (.arr [.mk 5 ["a"], .bad]) = ([(5, "a", 0)], some "each array member must be [ee, events...]") := by decide

/-! ### Basic lemmas about `cleanup`, `step` and `run` -/

theorem cleanup_nil_regs (cl : List Sub) : cleanup cl [] = [] := by
  induction cl with
  | nil => rfl
  | cons x t ih =>
    have h : cleanup (x :: t) [] = cleanup t [] := by
      simp [cleanup]
    rw [h, ih]

theorem cleanup_self (l : List Sub) : cleanup l l = [] := by
  induction l with
  | nil => rfl
  | cons x t ih =>
    have h : cleanup (x :: t) (x :: t) = cleanup t t := by
      simp [cleanup, List.erase_cons_head]
    rw [h, ih]

theorem cancel_regs (st : RaceState) : (cancel st).regs = cleanup st.cleanups st.regs := rfl

theorem cancel_calls (st : RaceState) : (cancel st).calls = st.calls := rfl

theorem cancel_cleanups (st : RaceState) : (cancel st).cleanups = st.cleanups := rfl

theorem cancel_of_regs_nil (st : RaceState) (h : st.regs = []) : cancel st = st := by
  obtain ⟨r, c, k⟩ := st
  simp only [cancel]
  simp only at h
  subst h
  simp [cleanup_nil_regs]

theorem step_of_regs_nil (st : RaceState) (a : Action) (h : st.regs = []) : step st a = st := by
  cases a with
  | fire s e args =>
    show emit st s e args = st
    unfold emit
    rw [h]
    rfl
  | docancel => exact cancel_of_regs_nil st h

theorem run_of_regs_nil (st : RaceState) (trace : List Action) (h : st.regs = []) :
    run st trace = st := by
  induction trace with
  | nil => rfl
  | cons a rest ih =>
    show run (step st a) rest = st
    rw [step_of_regs_nil st a h, ih]

theorem run_append (st : RaceState) (t1 t2 : List Action) :
    run st (t1 ++ t2) = run (run st t1) t2 := by
  induction t1 generalizing st with
  | nil => rfl
  | cons a rest ih =>
    show run (step st a) (rest ++ t2) = run (run (step st a) rest) t2
    exact ih (step st a)

/-! ### The reachability invariant of a cleanly started race -/

/-- States reachable from `init C`: the cleanups array never changes,
the registrations are either all still present or all gone, and once the
completion callback has been invoked the registrations are gone. -/
def Reach (C : List Sub) (st : RaceState) : Prop :=
  st.cleanups = C ∧ (st.regs = C ∨ st.regs = []) ∧ (st.calls ≠ [] → st.regs = [])

theorem reach_init (C : List Sub) : Reach C (init C) :=
  ⟨rfl, Or.inl rfl, fun h => absurd rfl h⟩

theorem fireOne_reach (C : List Sub) (args : List Nat) (st : RaceState) (sub : Sub)
    (h : Reach C st) : Reach C (fireOne args st sub) := by
  obtain ⟨hc, hr, hk⟩ := h
  unfold fireOne
  by_cases hm : sub ∈ st.cleanups
  · rw [if_pos hm]
    refine ⟨hc, ?_, ?_⟩
    · right
      show cleanup st.cleanups st.regs = []
      rcases hr with hr | hr
      · rw [hc, hr]; exact cleanup_self C
      · rw [hr]; exact cleanup_nil_regs _
    · intro _
      show cleanup st.cleanups st.regs = []
      rcases hr with hr | hr
      · rw [hc, hr]; exact cleanup_self C
      · rw [hr]; exact cleanup_nil_regs _
  · rw [if_neg hm]; exact ⟨hc, hr, hk⟩

theorem foldl_fireOne_reach (C : List Sub) (args : List Nat) (l : List Sub) (st : RaceState)
    (h : Reach C st) : Reach C (l.foldl (fireOne args) st) := by
  induction l generalizing st with
  | nil => exact h
  | cons x t ih => exact ih (fireOne args st x) (fireOne_reach C args st x h)

theorem step_reach (C : List Sub) (st : RaceState) (a : Action) (h : Reach C st) :
    Reach C (step st a) := by
  cases a with
  | fire s e args => exact foldl_fireOne_reach C args _ st h
  | docancel =>
    obtain ⟨hc, hr, _⟩ := h
    refine ⟨hc, Or.inr ?_, fun _ => ?_⟩ <;>
    · show cleanup st.cleanups st.regs = []
      rcases hr with hr | hr
      · rw [hc, hr]; exact cleanup_self C
      · rw [hr]; exact cleanup_nil_regs _

theorem run_reach (C : List Sub) (st : RaceState) (trace : List Action) (h : Reach C st) :
    Reach C (run st trace) := by
  induction trace generalizing st with
  | nil => exact h
  | cons a rest ih => exact ih (step st a) (step_reach C st a h)

theorem reach_of_run_init (C : List Sub) (trace : List Action) :
    Reach C (run (init C) trace) :=
  run_reach C (init C) trace (reach_init C)

/-! ### The snapshot taken by `emit` -/

theorem key_pred_true {x : Sub} {s : Nat} {e : String} :
    (x.1 == s && x.2.1 == e) = true ↔ (x.1, x.2.1) = (s, e) := by
  simp [Prod.ext_iff]

theorem filter_key_of_not_mem (C : List Sub) (s : Nat) (e : String) (h : (s, e) ∉ keys C) :
    C.filter (fun x => x.1 == s && x.2.1 == e) = [] := by
  rw [List.filter_eq_nil_iff]
  intro x hx hpx
  have hmem : (x.1, x.2.1) ∈ keys C := List.mem_map_of_mem _ hx
  rw [key_pred_true.mp hpx] at hmem
  exact h hmem

theorem filter_key_cons_pos (x : Sub) (t : List Sub) (s : Nat) (e : String)
    (hpx : (x.1 == s && x.2.1 == e) = true) :
    List.filter (fun y => y.1 == s && y.2.1 == e) (x :: t) =
      x :: List.filter (fun y => y.1 == s && y.2.1 == e) t :=
  List.filter_cons_of_pos hpx

theorem filter_key_cons_neg (x : Sub) (t : List Sub) (s : Nat) (e : String)
    (hpx : ¬(x.1 == s && x.2.1 == e) = true) :
    List.filter (fun y => y.1 == s && y.2.1 == e) (x :: t) =
      List.filter (fun y => y.1 == s && y.2.1 == e) t :=
  List.filter_cons_of_neg hpx

theorem filter_key_singleton (C : List Sub) (hd : (keys C).Nodup) (s : Nat) (e : String)
    (h : (s, e) ∈ keys C) :
    ∃ lid, C.filter (fun x => x.1 == s && x.2.1 == e) = [(s, e, lid)] ∧ (s, e, lid) ∈ C := by
  induction C with
  | nil => simp [keys] at h
  | cons x t ih =>
    have hk : keys (x :: t) = (x.1, x.2.1) :: keys t := rfl
    rw [hk] at h hd
    rw [List.nodup_cons] at hd
    by_cases hx : (x.1, x.2.1) = (s, e)
    · have hpx : (x.1 == s && x.2.1 == e) = true := key_pred_true.mpr hx
      have ht : t.filter (fun x => x.1 == s && x.2.1 == e) = [] :=
        filter_key_of_not_mem t s e (hx ▸ hd.1)
      have h1 : x.1 = s := congrArg Prod.fst hx
      have h2 : x.2.1 = e := congrArg (fun p => p.snd) hx
      have hx2 : x = (s, e, x.2.2) := by rw [← h1, ← h2]
      refine ⟨x.2.2, ?_, ?_⟩
      · rw [filter_key_cons_pos x t s e hpx, ht, hx2]
      · rw [← hx2]; exact List.mem_cons_self x t
    · have hpx : ¬((x.1 == s && x.2.1 == e) = true) := fun hh => hx (key_pred_true.mp hh)
      have h' : (s, e) ∈ keys t := by
        rcases List.mem_cons.mp h with h1 | h1
        · exact absurd h1.symm hx
        · exact h1
      obtain ⟨lid, h1, h2⟩ := ih hd.2 h'
      exact ⟨lid, by rw [filter_key_cons_neg x t s e hpx]; exact h1, List.mem_cons_of_mem x h2⟩

/-! ### Call counting when no (source, event) pair is watched twice -/

/-- States reachable from `init C` when the watched keys are distinct:
either untouched with no call yet, or fully detached with at most one
call made. -/
def Reach1 (C : List Sub) (st : RaceState) : Prop :=
  st.cleanups = C ∧
    ((st.regs = C ∧ st.calls = []) ∨ (st.regs = [] ∧ st.calls.length ≤ 1))

theorem reach1_init (C : List Sub) : Reach1 C (init C) :=
  ⟨rfl, Or.inl ⟨rfl, rfl⟩⟩

theorem step_reach1 (C : List Sub) (hd : (keys C).Nodup) (st : RaceState) (a : Action)
    (h : Reach1 C st) : Reach1 C (step st a) := by
  obtain ⟨hc, hcase⟩ := h
  cases a with
  | docancel =>
    refine ⟨hc, Or.inr ⟨?_, ?_⟩⟩
    · show cleanup st.cleanups st.regs = []
      rcases hcase with ⟨hr, _⟩ | ⟨hr, _⟩
      · rw [hc, hr]; exact cleanup_self C
      · rw [hr]; exact cleanup_nil_regs _
    · show st.calls.length ≤ 1
      rcases hcase with ⟨_, hk⟩ | ⟨_, hk⟩
      · rw [hk]; exact Nat.zero_le 1
      · exact hk
  | fire s e args =>
    rcases hcase with ⟨hr, hk⟩ | ⟨hr, hk⟩
    · show Reach1 C (emit st s e args)
      unfold emit
      rw [hr]
      by_cases hw : (s, e) ∈ keys C
      · obtain ⟨lid, hf, hm⟩ := filter_key_singleton C hd s e hw
        rw [hf]
        show Reach1 C (fireOne args st (s, e, lid))
        unfold fireOne
        rw [if_pos (show (s, e, lid) ∈ st.cleanups from hc ▸ hm)]
        refine ⟨hc, Or.inr ⟨?_, ?_⟩⟩
        · show cleanup st.cleanups st.regs = []
          rw [hc, hr]; exact cleanup_self C
        · show (st.calls ++ [onevent (s, e, lid).2.1 (s, e, lid).1 args]).length ≤ 1
          rw [hk]; rfl
      · rw [filter_key_of_not_mem C s e hw]
        exact ⟨hc, Or.inl ⟨hr, hk⟩⟩
    · show Reach1 C (emit st s e args)
      unfold emit
      rw [hr]
      exact ⟨hc, Or.inr ⟨hr, hk⟩⟩

theorem run_reach1 (C : List Sub) (hd : (keys C).Nodup) (st : RaceState) (trace : List Action)
    (h : Reach1 C st) : Reach1 C (run st trace) := by
  induction trace generalizing st with
  | nil => exact h
  | cons a rest ih => exact ih (step st a) (step_reach1 C hd st a h)

theorem calls_le_one (C : List Sub) (hd : (keys C).Nodup) (trace : List Action) :
    (run (init C) trace).calls.length ≤ 1 := by
  rcases (run_reach1 C hd (init C) trace (reach1_init C)).2 with ⟨_, hk⟩ | ⟨_, hk⟩
  · rw [hk]; exact Nat.zero_le 1
  · exact hk

theorem calls_eq_one (C : List Sub) (hd : (keys C).Nodup) (trace : List Action)
    (hfire : trace.all isFire = true) (hany : trace.any (watchedFire C) = true) :
    (run (init C) trace).calls.length = 1 := by
  induction trace with
  | nil => simp at hany
  | cons a rest ih =>
    rw [List.all_cons, Bool.and_eq_true] at hfire
    cases a with
    | docancel => simp [isFire] at hfire
    | fire s e args =>
      rw [List.any_cons, Bool.or_eq_true] at hany
      show (run (step (init C) (.fire s e args)) rest).calls.length = 1
      by_cases hw : (s, e) ∈ keys C
      · obtain ⟨lid, hf, hm⟩ := filter_key_singleton C hd s e hw
        have hstep : step (init C) (.fire s e args) =
            { regs := [], cleanups := C, calls := [onevent e s args] } := by
          show emit (init C) s e args = _
          unfold emit
          show (C.filter _).foldl (fireOne args) (init C) = _
          rw [hf]
          show fireOne args (init C) (s, e, lid) = _
          unfold fireOne
          rw [if_pos (show (s, e, lid) ∈ (init C).cleanups from hm)]
          show ({ init C with regs := cleanup C C, calls := [] ++ [onevent e s args] } : RaceState) = _
          rw [cleanup_self]
          rfl
        rw [hstep, run_of_regs_nil _ rest rfl]
        rfl
      · have hstep : step (init C) (.fire s e args) = init C := by
          show emit (init C) s e args = _
          unfold emit
          show (C.filter _).foldl (fireOne args) (init C) = _
          rw [filter_key_of_not_mem C s e hw]
          rfl
        rw [hstep]
        rcases hany with h1 | h1
        · simp only [watchedFire, decide_eq_true_eq] at h1
          exact absurd h1 hw
        · exact ih hfire.2 h1

theorem calls_eq_one_before_cancel (C : List Sub) (hd : (keys C).Nodup) (trace : List Action)
    (ha : (trace.takeWhile isFire).any (watchedFire C) = true) :
    (run (init C) trace).calls.length = 1 := by
  have hall : (trace.takeWhile isFire).all isFire = true :=
    List.all_eq_true.mpr (fun a haMem => List.mem_takeWhile_imp haMem)
  have h1 : (run (init C) (trace.takeWhile isFire)).calls.length = 1 :=
    calls_eq_one C hd (trace.takeWhile isFire) hall ha
  have hne : (run (init C) (trace.takeWhile isFire)).calls ≠ [] := by
    intro hnil
    rw [hnil] at h1
    exact Nat.noConfusion h1
  have hregs : (run (init C) (trace.takeWhile isFire)).regs = [] :=
    (reach_of_run_init C (trace.takeWhile isFire)).2.2 hne
  have hsplit : run (init C) trace =
      run (run (init C) (trace.takeWhile isFire)) (trace.dropWhile isFire) := by
    rw [← run_append, List.takeWhile_append_dropWhile]
  rw [hsplit, run_of_regs_nil _ (trace.dropWhile isFire) hregs]
  exact h1

/-! ### The attachments performed by `first` -/

theorem attachEntries_err_none_iff (es : List Entry) (ctr : Nat) :
    (attachEntries es ctr).2 = none ↔ es.all wfEntry = true := by
  induction es generalizing ctr with
  | nil => simp [attachEntries]
  | cons x rest ih =>
    cases x with
    | bad => simp [attachEntries, wfEntry]
    | mk ee events =>
      cases he : events.isEmpty with
      | true => simp [attachEntries, he, wfEntry]
      | false => simp [attachEntries, he, wfEntry, ih]

theorem attachEntries_subs_eq (es : List Entry) (ctr : Nat) :
    (attachEntries es ctr).1 = attachOk (es.takeWhile wfEntry) ctr := by
  induction es generalizing ctr with
  | nil => rfl
  | cons x rest ih =>
    cases x with
    | bad => rfl
    | mk ee events =>
      cases he : events.isEmpty with
      | true => simp [attachEntries, he, wfEntry, List.takeWhile_cons, attachOk]
      | false => simp [attachEntries, he, wfEntry, List.takeWhile_cons, attachOk, ih]

/-! ### Two-source races: concrete winner computations -/

theorem run_two_fire (u v : Nat) (eu ev : String) (args : List Nat)
    (hne : ¬(u = v ∧ eu = ev)) :
    (run (init [(u, eu, 0), (v, ev, 1)]) [.fire v ev args]).calls = [onevent ev v args] := by
  have hp1 : ¬((u == v && eu == ev) = true) := by
    intro hh
    rw [Bool.and_eq_true, beq_iff_eq, beq_iff_eq] at hh
    exact hne hh
  show (emit (init [(u, eu, 0), (v, ev, 1)]) v ev args).calls = [onevent ev v args]
  unfold emit
  rw [show (init [(u, eu, 0), (v, ev, 1)]).regs = [(u, eu, 0), (v, ev, 1)] from rfl]
  rw [filter_key_cons_neg (u, eu, 0) [(v, ev, 1)] v ev hp1]
  rw [filter_key_cons_pos (v, ev, 1) [] v ev (by simp)]
  show (fireOne args (init [(u, eu, 0), (v, ev, 1)]) (v, ev, 1)).calls = [onevent ev v args]
  unfold fireOne
  rw [if_pos (show (v, ev, 1) ∈ (init [(u, eu, 0), (v, ev, 1)]).cleanups by simp [init])]
  rfl

theorem run_two_fire_fst (u v : Nat) (eu ev : String) (args : List Nat)
    (hne : ¬(v = u ∧ ev = eu)) :
    (run (init [(u, eu, 0), (v, ev, 1)]) [.fire u eu args]).calls = [onevent eu u args] := by
  have hp2 : ¬((v == u && ev == eu) = true) := by
    intro hh
    rw [Bool.and_eq_true, beq_iff_eq, beq_iff_eq] at hh
    exact hne hh
  show (emit (init [(u, eu, 0), (v, ev, 1)]) u eu args).calls = [onevent eu u args]
  unfold emit
  rw [show (init [(u, eu, 0), (v, ev, 1)]).regs = [(u, eu, 0), (v, ev, 1)] from rfl]
  rw [filter_key_cons_pos (u, eu, 0) [(v, ev, 1)] u eu (by simp)]
  rw [filter_key_cons_neg (v, ev, 1) [] u eu hp2]
  show (fireOne args (init [(u, eu, 0), (v, ev, 1)]) (u, eu, 0)).calls = [onevent eu u args]
  unfold fireOne
  rw [if_pos (show (u, eu, 0) ∈ (init [(u, eu, 0), (v, ev, 1)]).cleanups by simp [init])]
  rfl

/-! ### Calls carry the error argument computed by `listener` -/

/-- Every recorded completion call was assembled by `onevent`. -/
def GoodCalls (st : RaceState) : Prop :=
  ∀ c ∈ st.calls, c.err = if c.event = "error" then c.args.head? else none

theorem fireOne_goodCalls (args : List Nat) (st : RaceState) (sub : Sub)
    (h : GoodCalls st) : GoodCalls (fireOne args st sub) := by
  unfold fireOne
  by_cases hm : sub ∈ st.cleanups
  · rw [if_pos hm]
    intro c hc
    simp only [List.mem_append, List.mem_singleton] at hc
    rcases hc with hc | hc
    · exact h c hc
    · rw [hc]; rfl
  · rw [if_neg hm]; exact h

theorem foldl_fireOne_goodCalls (args : List Nat) (l : List Sub) (st : RaceState)
    (h : GoodCalls st) : GoodCalls (l.foldl (fireOne args) st) := by
  induction l generalizing st with
  | nil => exact h
  | cons x t ih => exact ih (fireOne args st x) (fireOne_goodCalls args st x h)

theorem step_goodCalls (st : RaceState) (a : Action) (h : GoodCalls st) :
    GoodCalls (step st a) := by
  cases a with
  | fire s e args => exact foldl_fireOne_goodCalls args _ st h
  | docancel => exact h

theorem run_goodCalls (st : RaceState) (trace : List Action) (h : GoodCalls st) :
    GoodCalls (run st trace) := by
  induction trace generalizing st with
  | nil => exact h
  | cons a rest ih => exact ih (step st a) (step_goodCalls st a h)

/-! ### Claim theorems -/

/-- C1 (counterexample): the at-most-once guarantee fails as stated.
The input `[[ee, "a", "a"]]` is well-formed (an array member of length
three), `first` accepts it, yet a single firing of the watched event
`a` invokes the completion callback twice: both listener closures are in
the emit-time snapshot, and `cleanup` cannot retract an invocation
already being dispatched. -/
theorem first_at_most_once_counterexample :
    wfInput (.arr [.mk 0 ["a", "a"]]) = true ∧
    (first (.arr [.mk 0 ["a", "a"]])).2 = none ∧
    (run (init (first (.arr [.mk 0 ["a", "a"]])).1) [.fire 0 "a" []]).calls.length = 2 := by
  decide

/-- C1 (amended): for a race started by `first` over well-formed pairs
whose watched (source, event-name) combinations are pairwise distinct,
the completion callback is invoked at most once over any sequence of
event firings and cancels, and exactly once whenever a watched event
fires before any `cancel()` call (so in particular exactly once
whenever a watched event fires and cancel is never called), no matter
how many watched events fire on any source afterwards. -/
theorem first_at_most_once (inp : RaceInput) (_hwf : (first inp).2 = none)
    (hd : (keys (first inp).1).Nodup) (trace : List Action) :
    (run (init (first inp).1) trace).calls.length ≤ 1 ∧
    ((trace.takeWhile isFire).any (watchedFire (first inp).1) = true →
      (run (init (first inp).1) trace).calls.length = 1) :=
  ⟨calls_le_one _ hd trace, fun ha => calls_eq_one_before_cancel _ hd trace ha⟩

/-- C1 (witness): the amended theorem applied to the orchestrator's own
race, with the done event firing first and `cancel()` called after the
race has settled. -/
theorem first_at_most_once_witness :
    (run (init (first checkRaceInput).1) [.fire 1 "done" [], .docancel]).calls.length ≤ 1 ∧
    (run (init (first checkRaceInput).1) [.fire 1 "done" [], .docancel]).calls.length = 1 := by
  have h := first_at_most_once checkRaceInput (by decide) (by decide)
    [.fire 1 "done" [], .docancel]
  exact ⟨h.1, h.2 (by decide)⟩

/-- C2 (counterexample): the no-partial-attachment guarantee fails.  On
the malformed input `[[ee5, "a"], "bad"]` the `TypeError` is raised
synchronously, but by then the listener for `(ee5, "a")` has already
been attached: validation happens inside the attachment loop. -/
theorem first_malformed_counterexample :
    wfInput (.arr [.mk 5 ["a"], .bad]) = false ∧
    (first (.arr [.mk 5 ["a"], .bad])).2.isSome = true ∧
    (first (.arr [.mk 5 ["a"], .bad])).1 ≠ [] := by
  decide

/-- C2 (amended): on every malformed input `first` raises the
invalid-argument error synchronously, and at the moment it raises the
attached listeners are exactly those of the well-formed entries
preceding the first malformed entry (none when the input is not an
array, but possibly a non-empty partial attachment otherwise). -/
theorem first_malformed_sync (inp : RaceInput) (h : wfInput inp = false) :
    (first inp).2.isSome = true ∧ (first inp).1 = attachedOf inp := by
  cases inp with
  | notArray => exact ⟨rfl, rfl⟩
  | arr entries =>
    constructor
    · have hall : entries.all wfEntry = false := by simpa [wfInput] using h
      have hne : (attachEntries entries 0).2 ≠ none := by
        intro hn
        have h2 := (attachEntries_err_none_iff entries 0).mp hn
        rw [h2] at hall
        exact Bool.noConfusion hall
      exact Option.isSome_iff_ne_none.mpr hne
    · exact attachEntries_subs_eq entries 0

/-- C2 (witness): the amended theorem applied to a concrete malformed
input with one well-formed entry before the malformed one. -/
theorem first_malformed_sync_witness :
    (first (.arr [.mk 5 ["a"], .bad])).2.isSome = true ∧
    (first (.arr [.mk 5 ["a"], .bad])).1 = attachedOf (.arr [.mk 5 ["a"], .bad]) :=
  first_malformed_sync (.arr [.mk 5 ["a"], .bad]) (by decide)

/-- C3: after a race settles, by a winning event (a completion call was
recorded) or by an explicit cancel anywhere in the stimulus sequence,
no listener attached by the race remains registered on any source. -/
theorem race_full_cleanup (C : List Sub) (trace : List Action) :
    ((run (init C) trace).calls ≠ [] → (run (init C) trace).regs = []) ∧
    (∀ t2 : List Action, (run (init C) (trace ++ .docancel :: t2)).regs = []) := by
  constructor
  · exact (reach_of_run_init C trace).2.2
  · intro t2
    rw [run_append]
    have hr := reach_of_run_init C trace
    have hcr : (cancel (run (init C) trace)).regs = [] := by
      show cleanup (run (init C) trace).cleanups (run (init C) trace).regs = []
      rcases hr.2.1 with h | h
      · rw [hr.1, h]; exact cleanup_self C
      · rw [h]; exact cleanup_nil_regs _
    show (run (step (run (init C) trace) .docancel) t2).regs = []
    rw [show step (run (init C) trace) Action.docancel = cancel (run (init C) trace) from rfl]
    rw [run_of_regs_nil _ t2 hcr]
    exact hcr

/-- C3 (witness): the cleanup theorem applied to a one-listener race
settled by its watched event, and to a race cancelled immediately. -/
theorem race_full_cleanup_witness :
    (run (init [(0, "a", 0)]) [.fire 0 "a" []]).regs = [] ∧
    (run (init [(0, "a", 0)]) ([] ++ .docancel :: [])).regs = [] :=
  ⟨(race_full_cleanup [(0, "a", 0)] [.fire 0 "a" []]).1 (by decide),
   (race_full_cleanup [(0, "a", 0)] []).2 []⟩

/-- C4: in any state a race can reach, `cancel()` invokes no completion
callback (the call trace is unchanged), calling it a second time is a
no-op (the state is already fixed), and after it no race-attached
listener remains registered; this covers cancel after settlement and
double cancel. -/
theorem cancel_idempotent (C : List Sub) (trace : List Action) :
    (cancel (run (init C) trace)).calls = (run (init C) trace).calls ∧
    cancel (cancel (run (init C) trace)) = cancel (run (init C) trace) ∧
    (∀ x ∈ C, x ∉ (cancel (run (init C) trace)).regs) := by
  have hr := reach_of_run_init C trace
  have hcr : (cancel (run (init C) trace)).regs = [] := by
    show cleanup (run (init C) trace).cleanups (run (init C) trace).regs = []
    rcases hr.2.1 with h | h
    · rw [hr.1, h]; exact cleanup_self C
    · rw [h]; exact cleanup_nil_regs _
  refine ⟨rfl, cancel_of_regs_nil _ hcr, ?_⟩
  intro x _
  rw [hcr]
  exact List.not_mem_nil x

/-- C4 (witness): the idempotent-cancel theorem applied to a
one-listener race that was already cancelled once. -/
theorem cancel_idempotent_witness :
    (0, "b", 0) ∉ (cancel (run (init [(0, "b", 0)]) [.docancel])).regs :=
  (cancel_idempotent [(0, "b", 0)] [.docancel]).2.2 (0, "b", 0) (by decide)

/-- C5: for every configured result list, when the `done` timer event
wins the race the check promise resolves with exactly the configured
list, unchanged, whatever stimuli follow. -/
theorem runCheck_done_passthrough (data : List ImageCheck) (args : List Nat)
    (rest : List Action) :
    runCheck data (.fire 1 "done" args :: rest) = some (.resolved { checks := data }) := by
  have h1 : run (init (first checkRaceInput).1) (.fire 1 "done" args :: rest) =
      { regs := [], cleanups := (first checkRaceInput).1, calls := [onevent "done" 1 args] } := by
    show run (step (init (first checkRaceInput).1) (.fire 1 "done" args)) rest = _
    rw [show step (init (first checkRaceInput).1) (.fire 1 "done" args) =
        ({ regs := [], cleanups := (first checkRaceInput).1,
           calls := [onevent "done" 1 args] } : RaceState) from rfl]
    exact run_of_regs_nil _ rest rfl
  show (match (run (init (first checkRaceInput).1) (.fire 1 "done" args :: rest)).calls.head? with
      | some c => some (check data c.err c.src c.event c.args)
      | none => none) = some (Settled.resolved { checks := data })
  rw [h1]
  rfl

/-- C6: when the `cancel` event wins the race the check promise resolves
(it does not reject) with an empty findings list, and `runCheck` never
produces a rejection on any stimulus sequence. -/
theorem runCheck_cancel_graceful :
    (∀ (data : List ImageCheck) (args : List Nat) (rest : List Action),
      runCheck data (.fire 0 "cancel" args :: rest) = some (.resolved { checks := [] })) ∧
    (∀ (data : List ImageCheck) (trace : List Action),
      isRejected (runCheck data trace) = false) := by
  constructor
  · intro data args rest
    have h1 : run (init (first checkRaceInput).1) (.fire 0 "cancel" args :: rest) =
        { regs := [], cleanups := (first checkRaceInput).1,
          calls := [onevent "cancel" 0 args] } := by
      show run (step (init (first checkRaceInput).1) (.fire 0 "cancel" args)) rest = _
      rw [show step (init (first checkRaceInput).1) (.fire 0 "cancel" args) =
          ({ regs := [], cleanups := (first checkRaceInput).1,
             calls := [onevent "cancel" 0 args] } : RaceState) from rfl]
      exact run_of_regs_nil _ rest rfl
    show (match (run (init (first checkRaceInput).1)
          (.fire 0 "cancel" args :: rest)).calls.head? with
        | some c => some (check data c.err c.src c.event c.args)
        | none => none) = some (Settled.resolved { checks := [] })
    rw [h1]
    rfl
  · intro data trace
    show isRejected (match (run (init (first checkRaceInput).1) trace).calls.head? with
        | some c => some (check data c.err c.src c.event c.args)
        | none => none) = false
    cases (run (init (first checkRaceInput).1) trace).calls.head? with
    | none => rfl
    | some c =>
      show isRejected (some (check data c.err c.src c.event c.args)) = false
      unfold check
      by_cases hc : c.event = "done"
      · rw [if_pos hc]; rfl
      · rw [if_neg hc]; rfl

/-- C7: the error argument handed to the completion callback is the
winning event's first argument exactly when the event name is the
reserved name `error`, and absent for every other name; every call the
race records carries an error argument of this shape (the error is
surfaced through the callback, never thrown). -/
theorem listener_error_argument :
    (∀ (event : String) (ee : Nat) (args : List Nat),
      event ≠ "error" → (onevent event ee args).err = none) ∧
    (∀ (ee : Nat) (args : List Nat), (onevent "error" ee args).err = args.head?) ∧
    (∀ (C : List Sub) (trace : List Action), ∀ c ∈ (run (init C) trace).calls,
      c.err = if c.event = "error" then c.args.head? else none) := by
  refine ⟨?_, ?_, ?_⟩
  · intro event ee args h
    show (if event = "error" then args.head? else none) = none
    rw [if_neg h]
  · intro ee args
    rfl
  · intro C trace
    exact run_goodCalls (init C) trace (fun c hc => absurd hc (List.not_mem_nil c))

/-- C7 (witness): the error-argument theorem applied to a concrete
non-error event, to the reserved `error` event, and to the call recorded
by a race won by an `error` event. -/
theorem listener_error_argument_witness :
    (onevent "done" 1 [7]).err = none ∧
    (onevent "error" 0 [7]).err = some 7 ∧
    ({ err := some 7, src := 0, event := "error", args := [7] } : SettleCall).err =
      (if ({ err := some 7, src := 0, event := "error", args := [7] } : SettleCall).event = "error"
        then ({ err := some 7, src := 0, event := "error", args := [7] } : SettleCall).args.head?
        else none) := by
  refine ⟨?_, ?_, ?_⟩
  · exact listener_error_argument.1 "done" 1 [7] (by decide)
  · exact listener_error_argument.2.1 0 [7]
  · exact listener_error_argument.2.2 [(0, "error", 0)] [.fire 0 "error" [7]]
      { err := some 7, src := 0, event := "error", args := [7] } (by decide)

/-- C8: for two watched sources the winner reported to the callback is
the source whose event is delivered first, independent of the order in
which the two pairs were listed: firing B's event yields B as winner and
firing A's event yields A as winner, under either input ordering. -/
theorem race_order_independence (a b : Nat) (ea eb : String) (args args2 : List Nat)
    (h : (a, ea) ≠ (b, eb)) :
    (run (init (first (.arr [.mk a [ea], .mk b [eb]])).1) [.fire b eb args]).calls
        = [onevent eb b args] ∧
    (run (init (first (.arr [.mk b [eb], .mk a [ea]])).1) [.fire b eb args]).calls
        = [onevent eb b args] ∧
    (run (init (first (.arr [.mk a [ea], .mk b [eb]])).1) [.fire a ea args2]).calls
        = [onevent ea a args2] ∧
    (run (init (first (.arr [.mk b [eb], .mk a [ea]])).1) [.fire a ea args2]).calls
        = [onevent ea a args2] := by
  have h1 : ¬(a = b ∧ ea = eb) := fun hh => h (by rw [hh.1, hh.2])
  have h2 : ¬(b = a ∧ eb = ea) := fun hh => h (by rw [hh.1, hh.2])
  exact ⟨run_two_fire a b ea eb args h1, run_two_fire_fst b a eb ea args h1,
    run_two_fire_fst a b ea eb args2 h2, run_two_fire b a eb ea args2 h2⟩

/-- C8 (witness): order independence applied at two concrete distinct
sources. -/
theorem race_order_independence_witness :
    (run (init (first (.arr [.mk 0 ["x"], .mk 1 ["y"]])).1) [.fire 1 "y" [3]]).calls
        = [onevent "y" 1 [3]] ∧
    (run (init (first (.arr [.mk 1 ["y"], .mk 0 ["x"]])).1) [.fire 1 "y" [3]]).calls
        = [onevent "y" 1 [3]] ∧
    (run (init (first (.arr [.mk 0 ["x"], .mk 1 ["y"]])).1) [.fire 0 "x" [4]]).calls
        = [onevent "x" 0 [4]] ∧
    (run (init (first (.arr [.mk 1 ["y"], .mk 0 ["x"]])).1) [.fire 0 "x" [4]]).calls
        = [onevent "x" 0 [4]] :=
  race_order_independence 0 1 "x" "y" [3] [4] (by decide)

/-- C9: calling `first` with an empty pairs array raises no error and
attaches no listener; the resulting race never invokes the callback on
any subsequent stimuli, and `cancel()` on it is a no-op. -/
theorem first_empty_pairs (trace : List Action) :
    first (.arr []) = ([], none) ∧
    run (init (first (.arr [])).1) trace = init [] ∧
    (run (init (first (.arr [])).1) trace).calls = [] ∧
    cancel (init (first (.arr [])).1) = init [] := by
  refine ⟨rfl, ?_, ?_, ?_⟩
  · exact run_of_regs_nil _ trace rfl
  · rw [run_of_regs_nil _ trace rfl]; rfl
  · exact cancel_of_regs_nil _ rfl

/-- C10: the orchestrator's settlement handler resolves with the empty
result set for every winning event name other than `done`; in
particular a source-level `error` event winning the race would resolve
to an empty findings list, like a cancellation, rather than reject. -/
theorem check_non_done_empty (data : List ImageCheck) (err : Option Nat) (ee : Nat)
    (event : String) (args : List Nat) (h : event ≠ "done") :
    check data err ee event args = .resolved { checks := [] } := by
  unfold check
  rw [if_neg h]

/-- C10 (witness): the handler applied to a winning `error` event. -/
theorem check_non_done_empty_witness :
    check [] none 0 "error" [] = .resolved { checks := [] } :=
  check_non_done_empty [] none 0 "error" [] (by decide)

end ImageChecker
